import Mathlib

/-
  Verification development for the go-msvc/log structured logging library.

  Shallow embedding conventions:
  - Go strings are modelled as lists of characters (Str).
  - Go interface values stored in logger data maps are modelled by their
    rendered text (Val), wrapped in Option so that a stored nil interface is
    Option.none.
  - Go maps are modelled as association lists; map assignment is set-or-append
    and map delete removes the binding.  Iteration order is only used by the
    fan-out mutations, all of which are order-insensitive.
  - Panics are modelled with Except (the error carries the panic message).
  - Writers are opaque: a writer is identified by a number and a log call
    reports the bytes passed to Write (Option.none means Write is not called).
  - time.Time is modelled by its only used capability: a function from a
    format string to the formatted text.
-/

namespace GoLog

abbrev Str := List Char

abbrev Val := Str

/-- Association-list lookup, modelling Go map read with ok flag.
The stored value is itself an Option Val (a stored nil interface is none). -/
def lookupData : List (Str × Option Val) → Str → Option (Option Val)
| [], _ => none
| (k, v) :: rest, n => if k = n then some v else lookupData rest n

/-- Association-list assignment, modelling Go map assignment m[k] = v. -/
def setData : List (Str × Option Val) → Str → Option Val → List (Str × Option Val)
| [], n, v => [(n, v)]
| (k, v0) :: rest, n, v => if k = n then (k, v) :: rest else (k, v0) :: setData rest n v

/-- Association-list removal, modelling Go delete(m, k). -/
def eraseData : List (Str × Option Val) → Str → List (Str × Option Val)
| [], _ => []
| (k, v0) :: rest, n => if k = n then rest else (k, v0) :: eraseData rest n

/-- Lowercase ASCII letter, the class [a-z] of the name pattern. -/
def isLowerAZ (c : Char) : Bool := 'a' ≤ c && c ≤ 'z'

/-- The class [a-zA-Z0-9] of the name pattern. -/
def isAlnumAZ (c : Char) : Bool :=
  isLowerAZ c || ('A' ≤ c && c ≤ 'Z') || ('0' ≤ c && c ≤ '9')

/-- The body class [a-zA-Z0-9._-] of the name pattern. -/
def isBodyChar (c : Char) : Bool :=
  isAlnumAZ c || c = '.' || c = '_' || c = '-'

/-- ValidName from logger.go: whether a name matches the anchored regular
expression [a-z]([a-zA-Z0-9._-]*[a-zA-Z0-9])? in full.  A nonempty remainder
matches the optional group exactly when its last character is alphanumeric and
all characters before the last are body characters. -/
def validName (s : Str) : Bool :=
  match s with
  | [] => false
  | c :: rest =>
    isLowerAZ c &&
      (match rest with
       | [] => true
       | _ => rest.dropLast.all isBodyChar && isAlnumAZ (rest.getLastD ' '))

/-- Modelled from the spec: the Level enumeration is not under src (only its
uses are); the spec gives the ordered scale trace < debug < info < warn <
error < fatal with defined minimum and maximum bounds.  Go Level is an
integer-typed enum, so Level is modelled as Int with these named constants. -/
def TraceLevel : Int := 0

def DebugLevel : Int := 1

def InfoLevel : Int := 2

def WarnLevel : Int := 3

def ErrorLevel : Int := 4

def FatalLevel : Int := 5

/-- Modelled from the spec: the lower validation bound used by SetLevel. -/
def minLevel : Int := TraceLevel

/-- Modelled from the spec: the upper validation bound used by SetLevel. -/
def maxLevel : Int := FatalLevel

/-- Modelled from the spec: the severity level name used by the level column
(the Level String method is not under src).  Values outside the enumerated
range have no name given by the spec and render as a fixed placeholder. -/
def levelName (l : Int) : Str :=
  if l = 0 then "trace".toList
  else if l = 1 then "debug".toList
  else if l = 2 then "info".toList
  else if l = 3 then "warn".toList
  else if l = 4 then "error".toList
  else if l = 5 then "fatal".toList
  else "UNKNOWN".toList

/-- Index of the last occurrence of a character, strings.LastIndex for a
one-character separator. -/
def lastIndexOf (c : Char) (s : Str) : Option Nat :=
  match s.reverse.findIdx? (fun x => x = c) with
  | some i => some (s.length - 1 - i)
  | none => none

/-- The backtracking scan of Go path.Clean for a dotdot element: after out.w
is decremented once, w keeps moving left while w > dotdot and the buffer
character at w is not a slash; the buffer keeps indices below the final w. -/
def btLoop (out : Str) (dotdot : Nat) (w : Nat) : Nat :=
  if h : dotdot < w ∧ out.get? w ≠ some '/' then btLoop out dotdot (w - 1) else w
termination_by w
decreasing_by
  omega

/-- Backtrack step of Go path.Clean (the out.w > dotdot case of a dotdot). -/
def cleanBacktrack (out : Str) (dotdot : Nat) : Str :=
  out.take (btLoop out dotdot (out.length - 1))

/-- Main loop of Go path.Clean, one fuel unit per loop iteration; each
iteration consumes at least one input character so fuel = length + 1 is
enough.  The out buffer holds exactly the kept characters (Go indices below
out.w). -/
def cleanLoop (fuel : Nat) (rooted : Bool) (inp out : Str) (dotdot : Nat) : Str :=
  match fuel with
  | 0 => out
  | fuel + 1 =>
    match inp with
    | [] => out
    | c :: rest =>
      if c = '/' then
        cleanLoop fuel rooted rest out dotdot
      else if c = '.' ∧ (rest = [] ∨ rest.head? = some '/') then
        cleanLoop fuel rooted rest out dotdot
      else if c = '.' ∧ rest.head? = some '.' ∧
          (rest.drop 1 = [] ∨ (rest.drop 1).head? = some '/') then
        let rest2 := rest.drop 1
        if dotdot < out.length then
          cleanLoop fuel rooted rest2 (cleanBacktrack out dotdot) dotdot
        else if rooted = false then
          let out2 := (if 0 < out.length then out ++ "/".toList else out) ++ "..".toList
          cleanLoop fuel rooted rest2 out2 out2.length
        else
          cleanLoop fuel rooted rest2 out dotdot
      else
        let out2 :=
          if (rooted = true ∧ out.length ≠ 1) ∨ (rooted = false ∧ out.length ≠ 0) then
            out ++ "/".toList
          else out
        cleanLoop fuel rooted (rest.dropWhile (fun x => x ≠ '/'))
          (out2 ++ c :: rest.takeWhile (fun x => x ≠ '/')) dotdot

/-- Whether a path starts with a slash (rooted), path[0] == '/' in Go. -/
def isRooted : Str → Bool
| '/' :: _ => true
| _ => false

/-- Go path.Clean.  An empty path cleans to "."; a rooted path starts the
buffer with a slash and dotdot bound 1; an empty result is ".". -/
def pathClean (p : Str) : Str :=
  if p = [] then ".".toList
  else
    let rooted := isRooted p
    let out0 : Str := if rooted then "/".toList else []
    let dd0 : Nat := if rooted then 1 else 0
    let res := cleanLoop (p.length + 1) rooted p out0 dd0
    if res = [] then ".".toList else res

/-- Go path.Base: empty is "."; trailing slashes are removed; the part after
the last slash is kept; all-slash input gives "/". -/
def pathBase (p : Str) : Str :=
  if p = [] then ".".toList
  else
    let p1 := (p.reverse.dropWhile (fun c => c = '/')).reverse
    let p2 :=
      match lastIndexOf '/' p1 with
      | some i => p1.drop (i + 1)
      | none => p1
    if p2 = [] then "/".toList else p2

/-- Go path.Dir: the part up to and including the final slash, cleaned. -/
def pathDir (p : Str) : Str :=
  let dir :=
    match lastIndexOf '/' p with
    | some i => p.take (i + 1)
    | none => []
  pathClean dir

/-- Go strings.SplitN(s, sep, 2) for a one-character separator: at most two
pieces, split at the first occurrence. -/
def splitN2 (c : Char) (s : Str) : List Str :=
  match s.findIdx? (fun x => x = c) with
  | some i => [s.take i, s.drop (i + 1)]
  | none => [s]

/-- Caller from record.go: package, function, file and line of the code that
produced a log entry. -/
structure Caller where
  Package : Str
  Function : Str
  File : Str
  Line : Int
deriving DecidableEq

/-- One call-stack frame as reported by the host runtime: the fully qualified
function identifier, source file and line (the stack walk itself is a host
runtime primitive; the frame contents are inputs to the embedding). -/
structure Frame where
  function : Str
  file : Str
  line : Int
deriving DecidableEq

/-- The initial descriptor of GetCaller, every field an explicit marker. -/
def naCaller : Caller := ⟨"N/A".toList, "N/A".toList, "N/A".toList, -1⟩

/-- The zero Frame produced by resolving a zero program counter (the pc
buffer entries beyond the retrieved count are zero). -/
def zeroFrame : Frame := ⟨[], [], 0⟩

/-- GetCaller from record.go.  The pc buffer holds 10 entries, so n is at
most 10.  When n >= skip the code slices pc[skip : skip+1]: for skip = 10
that slice is out of range for the buffer (modelled as none, a panic);
otherwise the frame at index skip is resolved (a zero entry past the
retrieved frames yields the zero frame) and the function identifier is split
into package and function using path.Dir, path.Base and SplitN.  When the
stack is shallower than skip the initial N/A descriptor is returned. -/
def GetCaller (stack : List Frame) (skip : Nat) : Option Caller :=
  let n := min stack.length 10
  if skip ≤ n then
    if 10 < skip + 1 then none
    else
      let frame := ((stack.take 10).drop skip).headD zeroFrame
      let d0 := pathDir frame.function
      let d := if d0 = ".".toList then [] else d0
      let b := pathBase frame.function
      match splitN2 '.' b with
      | [p0, p1] => some ⟨d ++ '/' :: p0, p1, frame.file, frame.line⟩
      | _ => some ⟨"?".toList, frame.function, frame.file, frame.line⟩
  else some naCaller

/-- ASCII restriction of Go unicode.IsGraphic (the full Unicode table is host
runtime data): space through tilde are graphic, DEL and the controls are not. -/
def isGraphic (c : Char) : Bool :=
  if 0x20 ≤ c.toNat ∧ c.toNat ≠ 0x7f then true else false

/-- The message sanitation in logger.log: strings.Map dropping every rune
that is not graphic. -/
def cleanMessage (msg : Str) : Str := msg.filter isGraphic

/-- Column text rules from logger.go (the ITextValue implementations): time,
level, logger name, module, code location, message and data lookup columns. -/
inductive TextVal : Type where
| timeText (fmt : Str)
| levelText (width : Int)
| nameText (width : Int)
| moduleText (width : Int)
| codeText (width : Int)
| messageText (width : Int)
| dataText (fmt : Str) (name : Str) (width : Int)
deriving DecidableEq

/-- A named column of a column encoder (the column struct of logger.go). -/
structure Col where
  name : Str
  text : TextVal
deriving DecidableEq

mutual
/-- The logger struct of logger.go.  The id is the node identity (a fresh
number per created node, standing for the Go pointer); name, level, data,
writer and encoder are the struct fields; the writer is an opaque sink
identity (none is a nil writer) and the encoder is the column list of the
column encoder (none is a nil encoder).  The parent pointer is represented
by context (ancestor chains) rather than stored, since ownership flows
root to children. -/
inductive LNode : Type where
| mk : (id : Nat) → (name : Str) → (level : Int) →
       (data : List (Str × Option Val)) → (writer : Option Nat) →
       (encoder : Option (List Col)) → (subs : Subs) → LNode
/-- The subs map of a logger: name to child node. -/
inductive Subs : Type where
| nil : Subs
| cons : Str → LNode → Subs → Subs
end

def LNode.id : LNode → Nat
| .mk i _ _ _ _ _ _ => i

def LNode.name : LNode → Str
| .mk _ n _ _ _ _ _ => n

def LNode.level : LNode → Int
| .mk _ _ l _ _ _ _ => l

def LNode.data : LNode → List (Str × Option Val)
| .mk _ _ _ d _ _ _ => d

def LNode.writer : LNode → Option Nat
| .mk _ _ _ _ w _ _ => w

def LNode.encoder : LNode → Option (List Col)
| .mk _ _ _ _ _ e _ => e

def LNode.subs : LNode → Subs
| .mk _ _ _ _ _ _ s => s

/-- Child map read: l.subs[n] with ok flag. -/
def lookupSubs : Subs → Str → Option LNode
| .nil, _ => none
| .cons m c rest, n => if m = n then some c else lookupSubs rest n

/-- Child map assignment: l.subs[n] = c. -/
def setSubs : Subs → Str → LNode → Subs
| .nil, n, c => .cons n c .nil
| .cons m c0 rest, n, c =>
  if m = n then .cons m c rest else .cons m c0 (setSubs rest n c)

/-- Replace or register the n child of a node. -/
def setSub (t : LNode) (n : Str) (c : LNode) : LNode :=
  match t with
  | .mk i nm lv d w e s => .mk i nm lv d w e (setSubs s n c)

/-- Walk down the tree along a list of child names. -/
def navigate (t : LNode) : List Str → Option LNode
| [] => some t
| n :: rest =>
  match lookupSubs t.subs n with
  | some c => navigate c rest
  | none => none

/-- Apply a local mutation to the node at a path (in-place mutation of a
node inside the tree); a missing path leaves the tree unchanged. -/
def updateAt (t : LNode) (path : List Str) (f : LNode → LNode) : LNode :=
  match path with
  | [] => f t
  | n :: rest =>
    match lookupSubs t.subs n with
    | some c => setSub t n (updateAt c rest f)
    | none => t

/-- The chain of nodes from the node at a path up to the root (the node
first), realising the parent pointers of the Go struct. -/
def chainTo (t : LNode) : List Str → Option (List LNode)
| [] => some [t]
| n :: rest =>
  match lookupSubs t.subs n with
  | some c => (chainTo c rest).map (fun ch => ch ++ [t])
  | none => none

/-- logger.Name: the root (nil parent) is its own name; otherwise the parent
name, a slash and the own name. -/
def nameChain : List LNode → Str
| [] => []
| [l] => l.name
| l :: rest => nameChain rest ++ '/' :: l.name

/-- logger.Get over the parent chain: own data first, then the parent, and
(nil, false) past the root. -/
def getChain : List LNode → Str → Option Val × Bool
| [], _ => (none, false)
| l :: rest, n =>
  match lookupData l.data n with
  | some v => (v, true)
  | none => getChain rest n

/-- logger.Set: panic on an invalid key name, otherwise assign the value
into the own data map (a nil value is stored as a nil entry, exactly as
l.data[n] = v does). -/
def setNode (n : Str) (v : Option Val) (t : LNode) : Except Str LNode :=
  if validName n = false then
    .error ("logger.Set(".toList ++ n ++ ") is invalid name".toList)
  else
    match t with
    | .mk i nm lv d w e s => .ok (.mk i nm lv (setData d n v) w e s)

mutual
/-- logger.With: for a valid key, a nil value deletes the own binding and a
value assigns it, then every child recursively gets With(n, nil); an invalid
key is a silent no-op.  The same logger is returned (the result node has the
same id). -/
def withNode (n : Str) (v : Option Val) (t : LNode) : LNode :=
  match t with
  | .mk i nm lv d w e s =>
    if validName n = true then
      .mk i nm lv (if v = none then eraseData d n else setData d n v) w e
        (withSubs n s)
    else t
/-- The fan-out of With over the subs map: each child gets With(n, nil). -/
def withSubs (n : Str) : Subs → Subs
| .nil => .nil
| .cons m c rest => .cons m (withNode n none c) (withSubs n rest)
end

mutual
/-- logger.SetLevel: when the level lies within the enumerated bounds, set
the own level and recursively the level of every child (each recursive call
re-checks the same bounds with the same outcome); otherwise a silent no-op. -/
def setLevelNode (lvl : Int) (t : LNode) : LNode :=
  match t with
  | .mk i nm _ d w e s =>
    if minLevel ≤ lvl ∧ lvl ≤ maxLevel then
      .mk i nm lvl d w e (setLevelSubs lvl s)
    else t
/-- The fan-out of SetLevel over the subs map. -/
def setLevelSubs (lvl : Int) : Subs → Subs
| .nil => .nil
| .cons m c rest => .cons m (setLevelNode lvl c) (setLevelSubs lvl rest)
end

/-- logger.Logger (the per-node child lookup): panic on an invalid segment;
return an existing child unchanged; otherwise create a child that inherits
the current level, writer and encoder, with a fresh empty data map and empty
subs, register it and return it.  next is the next fresh node identity; the
result carries the updated fresh counter, the updated parent and the
returned child. -/
def nodeLogger (next : Nat) (n : Str) (t : LNode) : Except Str (Nat × LNode × LNode) :=
  if validName n = false then
    .error ("invalid logger name \"".toList ++ n ++ "\"".toList)
  else
    match lookupSubs t.subs n with
    | some c => .ok (next, t, c)
    | none =>
      let c := LNode.mk next n t.level [] t.writer t.encoder .nil
      .ok (next + 1, setSub t n c, c)

/-- Go strings.SplitN(s, "/", -1) for the path separator: every piece, with
empty pieces kept (the empty string splits to one empty piece). -/
def splitChar (c : Char) : Str → List Str
| [] => [[]]
| x :: rest =>
  if x = c then [] :: splitChar c rest
  else
    match splitChar c rest with
    | r :: rs => (x :: r) :: rs
    | [] => [[x]]

/-- The loop of the Logger registry function: walk the split pieces from the
top, skipping empty pieces and descending through logger.Logger on each
nonempty one; the result is the updated fresh counter, the updated tree and
the identity of the node the walk ends on. -/
def loggerGo (next : Nat) (t : LNode) : List Str → Except Str (Nat × LNode × Nat)
| [] => .ok (next, t, t.id)
| n :: rest =>
  if n.length = 0 then loggerGo next t rest
  else
    match nodeLogger next n t with
    | .error e => .error e
    | .ok (next1, t1, c) =>
      match loggerGo next1 c rest with
      | .error e => .error e
      | .ok (next2, c2, leaf) => .ok (next2, setSub t1 n c2, leaf)

/-- The registry state: the top logger tree and the next fresh node id. -/
structure St where
  root : LNode
  next : Nat

/-- The Logger registry entry point of logger.go: split the name on the path
separator, walk the pieces from the top creating or locating nodes, and
panic with missing logger name when the walk never left the top node.  The
leaf is returned by its node identity. -/
def LoggerFn (st : St) (name : Str) : Except Str (St × Nat) :=
  match loggerGo st.next st.root (splitChar '/' name) with
  | .error e => .error e
  | .ok (next2, root2, leaf) =>
    if leaf = st.root.id then .error "missing logger name".toList
    else .ok (⟨root2, next2⟩, leaf)

/-- NewColumnEncoder: an encoder with no columns. -/
def NewColumnEncoder : List Col := []

/-- IColumnEncoder.With: append columns in order. -/
def withCols (ce : List Col) (cs : List Col) : List Col := ce ++ cs

/-- The Column constructor of logger.go. -/
def Column (name : Str) (text : TextVal) : Col := ⟨name, text⟩

/-- The DataText constructor: an empty format string defaults to the verb
that renders the value as itself. -/
def DataText (fmt name : Str) (width : Int) : TextVal :=
  .dataText (if fmt = [] then "%v".toList else fmt) name width

/-- DefaultEncoder from logger.go: time, level, logger, module, code and
message columns in that order. -/
def DefaultEncoder : List Col :=
  withCols (withCols (withCols (withCols (withCols (withCols NewColumnEncoder
    [Column "time".toList (.timeText "2006-01-02 15:04:05.000".toList)])
    [Column "level".toList (.levelText 5)])
    [Column "logger".toList (.nameText 10)])
    [Column "module".toList (.moduleText 15)])
    [Column "code".toList (.codeText 30)])
    [Column "message".toList (.messageText 0)]

/-- The field-width rule textField of logger.go: width at most zero returns
the text unchanged; otherwise a text longer than the width keeps its last
width characters, and the format %-*.*s truncates to the width and pads on
the right with spaces to exactly the width. -/
def sprintfPad (w : Nat) (s : Str) : Str :=
  s.take w ++ List.replicate (w - (s.take w).length) ' '

def textField (w : Int) (s : Str) : Str :=
  if w ≤ 0 then s
  else
    let l := s.length
    let s1 := if l > w.toNat then s.drop (l - w.toNat) else s
    sprintfPad w.toNat s1

/-- A time value, modelled by its only used capability: producing the
formatted text for a format string. -/
abbrev TimeV := Str → Str

/-- Record from record.go: time, caller, level and message of one log call. -/
structure Record where
  time : TimeV
  caller : Caller
  level : Int
  message : Str

/-- Decimal digits of a natural number. -/
def natToStr (n : Nat) : Str := Nat.toDigits 10 n

/-- Decimal rendering of a Go int. -/
def intToStr (i : Int) : Str :=
  if i < 0 then '-' :: natToStr i.natAbs else natToStr i.natAbs

/-- The %5d verb of the code column: right-justified in a field of five. -/
def pad5d (i : Int) : Str :=
  let s := intToStr i
  List.replicate (5 - s.length) ' ' ++ s

/-- Rendering a stored data value with the configured verb.  Data values are
modelled by their rendered text, so the verb application yields that text; a
stored nil interface renders as Go prints a nil. -/
def sprintfVal (_fmt : Str) (v : Option Val) : Str :=
  match v with
  | some s => s
  | none => "<nil>".toList

/-- The Text methods of the column rules in logger.go, over the node chain
of the emitting logger (node first, root last). -/
def textOf (tv : TextVal) (chain : List LNode) (r : Record) : Str :=
  match tv with
  | .timeText fmt =>
    if fmt = [] then r.time "2006-01-02 15:04:05.000".toList else r.time fmt
  | .levelText w => textField w (levelName r.level)
  | .nameText w => textField w (nameChain chain)
  | .moduleText w =>
    textField w (r.caller.Package ++ '.' :: (r.caller.Function ++ "()".toList))
  | .codeText w =>
    textField w (r.caller.File ++ '(' :: (pad5d r.caller.Line ++ ")".toList))
  | .messageText w => textField w r.message
  | .dataText fmt n w =>
    let s :=
      match getChain chain n with
      | (v, true) => sprintfVal fmt v
      | (_, false) => []
    textField w s

/-- columnEncoder.Encode: a separator and the column text for every column
in order, then a newline, with the first byte stripped. -/
def encode (cols : List Col) (chain : List LNode) (r : Record) : Str :=
  ((cols.foldl (fun acc c => acc ++ '|' :: textOf c.text chain r) []) ++
    "\n".toList).drop 1

/-- logger.log: a nil encoder or nil writer is a silent no-op; a message
level at or above the node level resolves the caller at depth skip + 4,
builds the Record from the sanitised message and writes the encoded bytes;
otherwise nothing is written.  The outer Option is panic propagation (none
is a panic, never reachable from the public entry points); the inner Option
holds the bytes passed to the single Write call (none means Write is not
called). -/
def logOp (stack : List Frame) (now : TimeV) (l : LNode) (anc : List LNode)
    (skip : Nat) (level : Int) (msg : Str) : Option (Option Str) :=
  match l.encoder, l.writer with
  | none, _ => some none
  | some _, none => some none
  | some e, some _ =>
    if l.level ≤ level then
      match GetCaller stack (skip + 4) with
      | none => none
      | some c =>
        some (some (encode e (l :: anc) ⟨now, c, level, cleanMessage msg⟩))
    else some none

/-- The top logger created by init in logger.go: empty name, debug level, a
fresh data and child map, the standard error sink (writer identity 0) and
the default encoder.  The top parent pointer is nil (the package variable
is still nil when the struct literal is evaluated). -/
def topNode : LNode := .mk 0 [] DebugLevel [] (some 0) (some DefaultEncoder) .nil

/-- The registry state right after init: the top node, next fresh id 1. -/
def topState : St := ⟨topNode, 1⟩

/-- Concrete child with an own override for key k (value old). -/
def c1Child : LNode :=
  .mk 1 "c".toList 1 [("k".toList, some "old".toList)] (some 0) (some DefaultEncoder) .nil

/-- Concrete parent of c1Child with an empty own data map. -/
def c1Parent : LNode :=
  .mk 0 [] 1 [] (some 0) (some DefaultEncoder) (.cons "c".toList c1Child .nil)

/-- Concrete child node used by the SetLevel example. -/
def c2Child : LNode := .mk 1 "c".toList 1 [] (some 0) (some DefaultEncoder) .nil

/-- Concrete two-node tree used by the SetLevel example. -/
def c2Tree : LNode :=
  .mk 0 [] 1 [] (some 0) (some DefaultEncoder) (.cons "c".toList c2Child .nil)

/-- A node whose encoder is a column encoder with no columns. -/
def c4Empty : LNode := .mk 0 [] 1 [] (some 0) (some []) .nil

/-- A node with a nil encoder. -/
def c4NodeNil : LNode := .mk 0 [] 1 [] (some 0) none .nil

/-- A node with the default encoder and a writer, at debug level. -/
def c4Node : LNode := .mk 0 [] 1 [] (some 0) (some DefaultEncoder) .nil

/-- The registry state after obtaining logger a from the fresh top state. -/
def c6St : St :=
  ⟨.mk 0 [] 1 [] (some 0) (some DefaultEncoder)
    (.cons "a".toList (.mk 1 "a".toList 1 [] (some 0) (some DefaultEncoder) .nil) .nil), 2⟩

/-- The registry state after obtaining logger a/b from the fresh top state. -/
def c7St : St :=
  ⟨.mk 0 [] 1 [] (some 0) (some DefaultEncoder)
    (.cons "a".toList
      (.mk 1 "a".toList 1 [] (some 0) (some DefaultEncoder)
        (.cons "b".toList (.mk 2 "b".toList 1 [] (some 0) (some DefaultEncoder) .nil) .nil))
      .nil), 3⟩

/-- The nonempty pieces of a split name (the pieces the registry loop does
not skip). -/
def keepNonempty (l : List Str) : List Str := l.filter (fun s => !s.isEmpty)

theorem lookupSubs_setSubs_self (n : Str) (c : LNode) :
    ∀ s : Subs, lookupSubs (setSubs s n c) n = some c
| .nil => by simp [setSubs, lookupSubs]
| .cons m c0 rest => by
  by_cases h : m = n
  · simp [setSubs, lookupSubs, h]
  · simp [setSubs, lookupSubs, h, lookupSubs_setSubs_self n c rest]

theorem setSubs_setSubs (n : Str) (c c2 : LNode) :
    ∀ s : Subs, setSubs (setSubs s n c) n c2 = setSubs s n c2
| .nil => by simp [setSubs]
| .cons m c0 rest => by
  by_cases h : m = n
  · simp [setSubs, h]
  · simp [setSubs, h, setSubs_setSubs n c c2 rest]

theorem id_setSub (t : LNode) (n : Str) (c : LNode) : (setSub t n c).id = t.id := by
  cases t with
  | mk i nm lv d w e s => rfl

theorem data_setSub (t : LNode) (n : Str) (c : LNode) : (setSub t n c).data = t.data := by
  cases t with
  | mk i nm lv d w e s => rfl

theorem subs_setSub (t : LNode) (n : Str) (c : LNode) :
    (setSub t n c).subs = setSubs t.subs n c := by
  cases t with
  | mk i nm lv d w e s => rfl

theorem setSub_setSub (t : LNode) (n : Str) (c c2 : LNode) :
    setSub (setSub t n c) n c2 = setSub t n c2 := by
  cases t with
  | mk i nm lv d w e s =>
    simp [setSub, setSubs_setSubs]

theorem lookupSubs_setSub_self (t : LNode) (n : Str) (c : LNode) :
    lookupSubs (setSub t n c).subs n = some c := by
  rw [subs_setSub]
  exact lookupSubs_setSubs_self n c t.subs

theorem foldl_enc_length (f : Col → Str) :
    ∀ (cols : List Col) (acc : Str),
      acc.length ≤ (cols.foldl (fun a c => a ++ '|' :: f c) acc).length
| [], acc => le_refl _
| c :: cs, acc => by
  calc acc.length ≤ (acc ++ '|' :: f c).length := by simp
  _ ≤ _ := foldl_enc_length f cs (acc ++ '|' :: f c)

theorem encode_ends_newline (cols : List Col) (chain : List LNode) (r : Record)
    (h : cols ≠ []) : (encode cols chain r).getLast? = some '\n' := by
  obtain ⟨c, cs, rfl⟩ := List.exists_cons_of_ne_nil h
  unfold encode
  have hlen : 1 ≤ ((c :: cs).foldl
      (fun a x => a ++ '|' :: textOf x.text chain r) []).length := by
    have := foldl_enc_length (fun x => textOf x.text chain r) cs
      ([] ++ '|' :: textOf c.text chain r)
    simp only [List.foldl_cons]
    simp at this ⊢
    omega
  obtain ⟨x, p, hp⟩ := List.exists_cons_of_ne_nil
    (List.ne_nil_of_length_pos (by omega) :
      ((c :: cs).foldl (fun a x => a ++ '|' :: textOf x.text chain r) []) ≠ [])
  rw [hp]
  simp [List.getLast?_concat]

theorem getCaller_some_of_lt (stack : List Frame) (skip : Nat) (h : skip < 10) :
    ∃ c, GetCaller stack skip = some c := by
  simp only [GetCaller]
  split
  · split
    · omega
    · split
      · exact ⟨_, rfl⟩
      · exact ⟨_, rfl⟩
  · exact ⟨_, rfl⟩

/-- Claim C5: the field-width function returns the text unchanged when the
width is at most zero; for a positive width it keeps the rightmost width
characters of a longer text, pads a shorter text with spaces to the width,
and always produces exactly width characters. -/
theorem C5_textField_spec (w : Int) (s : Str) :
    (w ≤ 0 → textField w s = s) ∧
    (0 < w →
      (w.toNat < s.length → textField w s = (s.reverse.take w.toNat).reverse) ∧
      (s.length ≤ w.toNat →
        textField w s = s ++ List.replicate (w.toNat - s.length) ' ') ∧
      (textField w s).length = w.toNat) := by
  constructor
  · intro h
    simp [textField, h]
  · intro hw
    have hw0 : ¬ w ≤ 0 := by omega
    have hdrop : ∀ hlt : w.toNat < s.length,
        textField w s = s.drop (s.length - w.toNat) := by
      intro hlt
      simp only [textField, hw0, if_false, if_pos hlt, sprintfPad]
      have hlen : (s.drop (s.length - w.toNat)).length = w.toNat := by
        simp [List.length_drop]
        omega
      rw [List.take_of_length_le (le_of_eq hlen)]
      simp [hlen]
    refine ⟨?_, ?_, ?_⟩
    · intro hlt
      rw [hdrop hlt]
      have hrd : (s.drop (s.length - w.toNat)).reverse =
          List.take (s.length - (s.length - w.toNat)) s.reverse := List.reverse_drop
      have harith : s.length - (s.length - w.toNat) = w.toNat := by omega
      rw [harith] at hrd
      calc s.drop (s.length - w.toNat)
          = (s.drop (s.length - w.toNat)).reverse.reverse := by simp
      _ = (s.reverse.take w.toNat).reverse := by rw [hrd]
    · intro hle
      have hnlt : ¬ (w.toNat < s.length) := by omega
      simp only [textField, hw0, if_false, if_neg hnlt, sprintfPad]
      rw [List.take_of_length_le hle]
    · by_cases hlt : w.toNat < s.length
      · rw [hdrop hlt]
        simp [List.length_drop]
        omega
      · have hle : s.length ≤ w.toNat := by omega
        simp only [textField, hw0, if_false, if_neg hlt, sprintfPad]
        rw [List.take_of_length_le hle]
        simp
        omega

theorem C5_witness :
    (0 : Int) < 5 ∧
    textField 5 "abcdefgh".toList = ("abcdefgh".toList.reverse.take 5).reverse ∧
    textField 5 "abcdefgh".toList = "defgh".toList :=
  ⟨by decide, ((C5_textField_spec 5 "abcdefgh".toList).2 (by decide)).1 (by decide),
   by decide⟩

/-- Claim C8: when the requested skip count exceeds the frames available on
the stack, GetCaller returns normally with the descriptor whose package,
function and file are the explicit N/A marker (not the empty string) and
whose line is the explicit -1 marker. -/
theorem C8_getCaller_shallow (stack : List Frame) (skip : Nat)
    (h : stack.length < skip) :
    GetCaller stack skip = some naCaller ∧
    naCaller.Package = "N/A".toList ∧ naCaller.Function = "N/A".toList ∧
    naCaller.File = "N/A".toList ∧ naCaller.Line = -1 ∧
    naCaller.Package ≠ [] ∧ naCaller.Function ≠ [] ∧ naCaller.File ≠ [] := by
  refine ⟨?_, rfl, rfl, rfl, rfl, by decide, by decide, by decide⟩
  have hmin : min stack.length 10 ≤ stack.length := Nat.min_le_left _ _
  have hn : ¬ (skip ≤ min stack.length 10) := by omega
  simp [GetCaller, hn]

theorem C8_witness :
    ([] : List Frame).length < 1 ∧ GetCaller [] 1 = some naCaller :=
  ⟨by decide, (C8_getCaller_shallow [] 1 (by decide)).1⟩

/-- Claim C9: a column encoder with no columns encodes every record to the
empty byte sequence with no trailing newline (stripping the leading
separator removes the newline itself); an encoder with at least one column
produces newline-terminated output. -/
theorem C9_encode_empty (cols : List Col) (chain : List LNode) (r : Record) :
    (cols = [] → encode cols chain r = []) ∧
    (cols ≠ [] → (encode cols chain r).getLast? = some '\n') := by
  constructor
  · rintro rfl
    rfl
  · exact encode_ends_newline cols chain r

theorem C9_witness :
    encode [] [topNode] ⟨fun _ => [], naCaller, 2, "hi".toList⟩ = [] ∧
    (encode [Column "m".toList (.messageText 0)] [topNode]
      ⟨fun _ => [], naCaller, 2, "hi".toList⟩).getLast? = some '\n' :=
  ⟨(C9_encode_empty [] [topNode] ⟨fun _ => [], naCaller, 2, "hi".toList⟩).1 rfl,
   (C9_encode_empty [Column "m".toList (.messageText 0)] [topNode]
      ⟨fun _ => [], naCaller, 2, "hi".toList⟩).2 (by simp)⟩

/-- Claim C10: for a key name failing the naming pattern, Set panics with
the invalid-name message while With on the same node is a silent no-op that
leaves the node (own data and every descendant) unchanged and returns the
same logger. -/
theorem C10_invalid_key_spec (n : Str) (v : Option Val) (t : LNode)
    (h : validName n = false) :
    setNode n v t = .error ("logger.Set(".toList ++ n ++ ") is invalid name".toList) ∧
    withNode n v t = t := by
  constructor
  · simp [setNode, h]
  · cases t with
    | mk i nm lv d w e s => simp [withNode, h]

theorem C10_witness :
    validName "A".toList = false ∧
    setNode "A".toList (some "x".toList) topNode =
      .error ("logger.Set(".toList ++ "A".toList ++ ") is invalid name".toList) ∧
    withNode "A".toList (some "x".toList) topNode = topNode :=
  ⟨by decide,
   (C10_invalid_key_spec "A".toList (some "x".toList) topNode (by decide)).1,
   (C10_invalid_key_spec "A".toList (some "x".toList) topNode (by decide)).2⟩

/-- Claim C1 (code bug evidence): Set on a parent stores the value in the
parent's own map only and does not remove the key from a child's own map,
so a child with an older override still answers Get with the old value.
The interface documentation in logger.go states Set removes the key from
all children, as the claim says; the implementation does not. -/
theorem C1_set_does_not_push_down :
    setNode "k".toList (some "new".toList) c1Parent =
      .ok (.mk 0 [] 1 [("k".toList, some "new".toList)] (some 0)
        (some DefaultEncoder) (.cons "c".toList c1Child .nil)) ∧
    (match setNode "k".toList (some "new".toList) c1Parent with
     | .ok p2 => (chainTo p2 ["c".toList]).map (fun ch => getChain ch "k".toList)
     | .error _ => none) = some (some ("old".toList : Val), true) ∧
    (some ("old".toList : Val), true) ≠ (some ("new".toList : Val), true) :=
  ⟨rfl, rfl, by decide⟩

/-- Claim C3: looking up a fresh valid child name creates a child whose
level, writer and encoder are the parent's current values, with a fresh
empty data map and no children; a later Set on the parent leaves the
registered child untouched, and writing any child back never alters the
parent's own data map. -/
theorem C3_child_creation_spec (next : Nat) (n : Str) (t : LNode)
    (h1 : validName n = true) (h2 : lookupSubs t.subs n = none) :
    ∃ c, nodeLogger next n t = .ok (next + 1, setSub t n c, c) ∧
      c.level = t.level ∧ c.writer = t.writer ∧ c.encoder = t.encoder ∧
      c.data = [] ∧ c.subs = .nil ∧
      lookupSubs (setSub t n c).subs n = some c ∧
      (∀ k v t2, setNode k v (setSub t n c) = .ok t2 →
        lookupSubs t2.subs n = some c) ∧
      (∀ c2 : LNode, (setSub t n c2).data = t.data) := by
  refine ⟨LNode.mk next n t.level [] t.writer t.encoder .nil, ?_, rfl, rfl, rfl,
    rfl, rfl, lookupSubs_setSub_self _ _ _, ?_, fun c2 => data_setSub t n c2⟩
  · simp [nodeLogger, h1, h2]
  · intro k v t2 hset
    by_cases hk : validName k = false
    · simp [setNode, hk] at hset
    · cases hu : setSub t n (LNode.mk next n t.level [] t.writer t.encoder .nil) with
      | mk i nm lv d w e s =>
        rw [hu] at hset
        simp [setNode, hk] at hset
        have hts : t2.subs = s := by rw [← hset]; rfl
        rw [hts]
        have := lookupSubs_setSub_self t n (LNode.mk next n t.level [] t.writer t.encoder .nil)
        rw [hu] at this
        exact this

theorem lookupSubs_setLevelSubs (lvl : Int) (n : Str) :
    ∀ s : Subs, lookupSubs (setLevelSubs lvl s) n =
      (lookupSubs s n).map (setLevelNode lvl)
| .nil => by simp [setLevelSubs, lookupSubs]
| .cons m c rest => by
  by_cases h : m = n
  · simp [setLevelSubs, lookupSubs, h]
  · simp [setLevelSubs, lookupSubs, h, lookupSubs_setLevelSubs lvl n rest]

theorem setLevelNode_inRange (lvl : Int) (hr : minLevel ≤ lvl ∧ lvl ≤ maxLevel)
    (t : LNode) :
    setLevelNode lvl t =
      .mk t.id t.name lvl t.data t.writer t.encoder (setLevelSubs lvl t.subs) := by
  cases t with
  | mk i nm lv d w e s =>
    simp [setLevelNode, hr, LNode.id, LNode.name, LNode.data, LNode.writer,
      LNode.encoder, LNode.subs]

theorem level_setLevelNode (lvl : Int) (hr : minLevel ≤ lvl ∧ lvl ≤ maxLevel)
    (t : LNode) : (setLevelNode lvl t).level = lvl := by
  rw [setLevelNode_inRange lvl hr t]
  rfl

theorem navigate_setLevelNode (lvl : Int) (hr : minLevel ≤ lvl ∧ lvl ≤ maxLevel) :
    ∀ (q : List Str) (t : LNode),
      navigate (setLevelNode lvl t) q = (navigate t q).map (setLevelNode lvl)
| [], t => by simp [navigate]
| n :: rest, t => by
  cases hc : lookupSubs t.subs n with
  | none =>
    have h1 : navigate t (n :: rest) = none := by
      show (match lookupSubs t.subs n with
            | some c2 => navigate c2 rest
            | none => none) = none
      rw [hc]
    have h2 : navigate (setLevelNode lvl t) (n :: rest) = none := by
      rw [setLevelNode_inRange lvl hr t]
      show (match lookupSubs (setLevelSubs lvl t.subs) n with
            | some c2 => navigate c2 rest
            | none => none) = none
      rw [lookupSubs_setLevelSubs, hc]
      rfl
    rw [h1, h2]
    rfl
  | some c =>
    have h1 : navigate t (n :: rest) = navigate c rest := by
      show (match lookupSubs t.subs n with
            | some c2 => navigate c2 rest
            | none => none) = navigate c rest
      rw [hc]
    have h2 : navigate (setLevelNode lvl t) (n :: rest) =
        navigate (setLevelNode lvl c) rest := by
      rw [setLevelNode_inRange lvl hr t]
      show (match lookupSubs (setLevelSubs lvl t.subs) n with
            | some c2 => navigate c2 rest
            | none => none) = navigate (setLevelNode lvl c) rest
      rw [lookupSubs_setLevelSubs, hc]
      rfl
    rw [h1, h2, navigate_setLevelNode lvl hr rest c]

/-- Claim C2: a level within the enumerated bounds is set on the node and on
every existing descendant (every node still reachable in the updated tree
has the new level, and the updated tree is the levelwise image of the old
one, so no node appears or disappears); a child created afterwards anywhere
in the updated tree inherits the new level; an out-of-range level leaves the
tree completely unchanged, and SetLevel never fails. -/
theorem C2_setLevel_spec (lvl : Int) (t : LNode) :
    (minLevel ≤ lvl ∧ lvl ≤ maxLevel →
      (∀ (q : List Str) (n1 : LNode), navigate t q = some n1 →
        navigate (setLevelNode lvl t) q = some (setLevelNode lvl n1) ∧
        (setLevelNode lvl n1).level = lvl) ∧
      (∀ (q : List Str) (n2 : LNode) (next : Nat) (m : Str),
        navigate (setLevelNode lvl t) q = some n2 →
        validName m = true → lookupSubs n2.subs m = none →
        ∃ c, nodeLogger next m n2 = .ok (next + 1, setSub n2 m c, c) ∧
          c.level = lvl)) ∧
    (¬ (minLevel ≤ lvl ∧ lvl ≤ maxLevel) → setLevelNode lvl t = t) := by
  constructor
  · intro hr
    constructor
    · intro q n1 hq
      rw [navigate_setLevelNode lvl hr q t, hq]
      exact ⟨rfl, level_setLevelNode lvl hr n1⟩
    · intro q n2 next m hq hm hnone
      refine ⟨LNode.mk next m n2.level [] n2.writer n2.encoder .nil, ?_, ?_⟩
      · simp [nodeLogger, hm, hnone]
      · rw [navigate_setLevelNode lvl hr q t] at hq
        cases hq0 : navigate t q with
        | none => rw [hq0] at hq; simp at hq
        | some n1 =>
          rw [hq0] at hq
          simp at hq
          have : n2.level = lvl := by rw [← hq]; exact level_setLevelNode lvl hr n1
          simpa [LNode.level] using this
  · intro hr
    cases t with
    | mk i nm lv d w e s => simp [setLevelNode, hr]

theorem C2_witness :
    (navigate (setLevelNode 2 c2Tree) ["c".toList] = some (setLevelNode 2 c2Child) ∧
      (setLevelNode 2 c2Child).level = 2) ∧
    setLevelNode 99 c2Tree = c2Tree ∧
    (∃ c, nodeLogger 7 "x".toList (setLevelNode 2 c2Child) =
        .ok (7 + 1, setSub (setLevelNode 2 c2Child) "x".toList c, c) ∧
      c.level = 2) :=
  ⟨((C2_setLevel_spec 2 c2Tree).1 (by decide)).1 ["c".toList] c2Child rfl,
   (C2_setLevel_spec 99 c2Tree).2 (by decide),
   ((C2_setLevel_spec 2 c2Tree).1 (by decide)).2 ["c".toList]
     (setLevelNode 2 c2Child) 7 "x".toList
     (((C2_setLevel_spec 2 c2Tree).1 (by decide)).1 ["c".toList] c2Child rfl).1
     (by decide) rfl⟩

/-- Claim C4 (amended): with a non-nil encoder and writer, a message at or
above the node level writes exactly the bytes produced by encoding the one
Record built from the call (and when the column encoder has at least one
column those bytes end in a newline); a message strictly below the level, or
a nil encoder or writer, writes nothing, and the call never panics. -/
theorem C4_log_emit_spec (stack : List Frame) (now : TimeV) (l : LNode)
    (anc : List LNode) (level : Int) (msg : Str) :
    (l.encoder = none ∨ l.writer = none →
      logOp stack now l anc 0 level msg = some none) ∧
    (∀ (e : List Col) (w : Nat), l.encoder = some e → l.writer = some w →
      l.level ≤ level →
      logOp stack now l anc 0 level msg =
        some (some (encode e (l :: anc)
          ⟨now, (GetCaller stack 4).getD naCaller, level, cleanMessage msg⟩)) ∧
      (e ≠ [] →
        (encode e (l :: anc)
          ⟨now, (GetCaller stack 4).getD naCaller, level,
            cleanMessage msg⟩).getLast? = some '\n')) ∧
    (level < l.level → logOp stack now l anc 0 level msg = some none) := by
  refine ⟨?_, ?_, ?_⟩
  · intro h
    cases he : l.encoder with
    | none => simp [logOp, he]
    | some e =>
      cases hw : l.writer with
      | none => simp [logOp, he, hw]
      | some w =>
        rw [he] at h; rw [hw] at h
        rcases h with h | h <;> exact absurd h (by simp)
  · intro e w he hw hlev
    obtain ⟨c, hc⟩ := getCaller_some_of_lt stack 4 (by omega)
    have h04 : (0 : Nat) + 4 = 4 := rfl
    constructor
    · simp only [logOp, he, hw, if_pos hlev, h04, hc, Option.getD_some]
    · intro hne
      exact encode_ends_newline e (l :: anc) _ hne
  · intro hlt
    cases he : l.encoder with
    | none => simp [logOp, he]
    | some e =>
      cases hw : l.writer with
      | none => simp [logOp, he, hw]
      | some w =>
        have : ¬ (l.level ≤ level) := by omega
        simp [logOp, he, hw, this]

theorem C4_witness :
    logOp [] (fun _ => []) c4NodeNil [] 0 2 "x".toList = some none ∧
    (logOp [] (fun _ => []) c4Node [] 0 2 "x".toList =
      some (some (encode DefaultEncoder [c4Node]
        ⟨fun _ => [], (GetCaller [] 4).getD naCaller, 2,
          cleanMessage "x".toList⟩)) ∧
     (encode DefaultEncoder [c4Node]
        ⟨fun _ => [], (GetCaller [] 4).getD naCaller, 2,
          cleanMessage "x".toList⟩).getLast? = some '\n') ∧
    logOp [] (fun _ => []) c4Node [] 0 0 "x".toList = some none :=
  ⟨(C4_log_emit_spec [] (fun _ => []) c4NodeNil [] 2 "x".toList).1 (Or.inl rfl),
   ⟨((C4_log_emit_spec [] (fun _ => []) c4Node [] 2 "x".toList).2.1
       DefaultEncoder 0 rfl rfl (by decide)).1,
    ((C4_log_emit_spec [] (fun _ => []) c4Node [] 2 "x".toList).2.1
       DefaultEncoder 0 rfl rfl (by decide)).2 (by decide)⟩,
   (C4_log_emit_spec [] (fun _ => []) c4Node [] 0 "x".toList).2.2 (by decide)⟩

/-- Claim C4 counterexample: a node with a non-nil writer and a non-nil
column encoder that has no columns, at or above threshold, performs a Write
of the empty byte sequence, which is not a line ending in a newline. -/
theorem C4_empty_encoder_cex :
    c4Empty.encoder ≠ none ∧ c4Empty.writer ≠ none ∧ c4Empty.level ≤ 2 ∧
    logOp [] (fun _ => []) c4Empty [] 0 2 "x".toList = some (some []) ∧
    ([] : Str).getLast? ≠ some '\n' :=
  ⟨by simp [c4Empty, LNode.encoder], by simp [c4Empty, LNode.writer],
   by decide, rfl, by decide⟩

theorem C3_witness :
    ∃ c, nodeLogger 5 "x".toList topNode = .ok (5 + 1, setSub topNode "x".toList c, c) ∧
      c.level = topNode.level ∧ c.writer = topNode.writer ∧
      c.encoder = topNode.encoder ∧ c.data = [] ∧ c.subs = .nil ∧
      lookupSubs (setSub topNode "x".toList c).subs "x".toList = some c ∧
      (∀ k v t2, setNode k v (setSub topNode "x".toList c) = .ok t2 →
        lookupSubs t2.subs "x".toList = some c) ∧
      (∀ c2 : LNode, (setSub topNode "x".toList c2).data = topNode.data) :=
  C3_child_creation_spec 5 "x".toList topNode (by decide) rfl

theorem nodeLogger_ok (next : Nat) (n : Str) (t : LNode) (next1 : Nat)
    (t1 c : LNode) (h : nodeLogger next n t = .ok (next1, t1, c)) :
    validName n = true ∧
    ((lookupSubs t.subs n = some c ∧ next1 = next ∧ t1 = t) ∨
     (lookupSubs t.subs n = none ∧
      c = LNode.mk next n t.level [] t.writer t.encoder .nil ∧
      next1 = next + 1 ∧ t1 = setSub t n c)) := by
  by_cases hv : validName n = false
  · simp [nodeLogger, hv] at h
  · have hv2 : validName n = true := by
      cases hb : validName n
      · exact absurd hb hv
      · rfl
    refine ⟨hv2, ?_⟩
    cases hc : lookupSubs t.subs n with
    | some c0 =>
      simp [nodeLogger, hv, hc] at h
      obtain ⟨h1, h2, h3⟩ := h
      left
      exact ⟨by rw [h3], h1.symm, h2.symm⟩
    | none =>
      simp [nodeLogger, hv, hc] at h
      obtain ⟨h1, h2, h3⟩ := h
      right
      refine ⟨rfl, h3.symm, h1.symm, ?_⟩
      rw [← h2, ← h3]

theorem loggerGo_cons (next : Nat) (t : LNode) (n : Str) (rest : List Str)
    (h0 : ¬ n.length = 0) :
    loggerGo next t (n :: rest) =
      (match nodeLogger next n t with
       | .error e => .error e
       | .ok (next1, t1, c) =>
         match loggerGo next1 c rest with
         | .error e => .error e
         | .ok (next2, c2, leaf) => .ok (next2, setSub t1 n c2, leaf)) := by
  simp [loggerGo, h0]

theorem loggerGo_root_id : ∀ (segs : List Str) (next : Nat) (t : LNode)
    (next2 : Nat) (t2 : LNode) (leaf : Nat),
    loggerGo next t segs = .ok (next2, t2, leaf) → t2.id = t.id
| [], next, t, next2, t2, leaf => by
  intro h
  simp [loggerGo] at h
  rw [← h.2.1]
| n :: rest, next, t, next2, t2, leaf => by
  intro h
  by_cases h0 : n.length = 0
  · have h2 : loggerGo next t rest = .ok (next2, t2, leaf) := by
      simpa [loggerGo, h0] using h
    exact loggerGo_root_id rest next t next2 t2 leaf h2
  · rw [loggerGo_cons next t n rest h0] at h
    cases hnl : nodeLogger next n t with
    | error e => rw [hnl] at h; exact absurd h (by simp)
    | ok r =>
      obtain ⟨next1, t1, c⟩ := r
      rw [hnl] at h
      dsimp only at h
      cases hin : loggerGo next1 c rest with
      | error e => rw [hin] at h; exact absurd h (by simp)
      | ok r2 =>
        obtain ⟨next2x, c2, leafx⟩ := r2
        rw [hin] at h
        simp at h
        have ht2 : t2 = setSub t1 n c2 := h.2.1.symm
        have ht1 : t1.id = t.id := by
          rcases (nodeLogger_ok next n t next1 t1 c hnl).2 with
            ⟨_, _, h1⟩ | ⟨_, _, _, h1⟩
          · rw [h1]
          · rw [h1, id_setSub]
        rw [ht2, id_setSub, ht1]

theorem loggerGo_idem : ∀ (segs : List Str) (next : Nat) (t : LNode)
    (next2 : Nat) (t2 : LNode) (leaf : Nat),
    loggerGo next t segs = .ok (next2, t2, leaf) →
    loggerGo next2 t2 segs = .ok (next2, t2, leaf)
| [], next, t, next2, t2, leaf => by
  intro h
  simp [loggerGo] at h ⊢
  obtain ⟨h1, h2, h3⟩ := h
  rw [← h2, ← h3]
| n :: rest, next, t, next2, t2, leaf => by
  intro h
  by_cases h0 : n.length = 0
  · have h2 : loggerGo next t rest = .ok (next2, t2, leaf) := by
      simpa [loggerGo, h0] using h
    have := loggerGo_idem rest next t next2 t2 leaf h2
    simpa [loggerGo, h0] using this
  · rw [loggerGo_cons next t n rest h0] at h
    cases hnl : nodeLogger next n t with
    | error e => rw [hnl] at h; exact absurd h (by simp)
    | ok r =>
      obtain ⟨next1, t1, c⟩ := r
      rw [hnl] at h
      dsimp only at h
      cases hin : loggerGo next1 c rest with
      | error e => rw [hin] at h; exact absurd h (by simp)
      | ok r2 =>
        obtain ⟨next2x, c2, leafx⟩ := r2
        rw [hin] at h
        simp at h
        obtain ⟨he1, he2, he3⟩ := h
        have hval := (nodeLogger_ok next n t next1 t1 c hnl).1
        have hnl2 : nodeLogger next2 n t2 = .ok (next2, t2, c2) := by
          rw [← he2]
          simp [nodeLogger, hval, lookupSubs_setSub_self]
        rw [loggerGo_cons next2 t2 n rest h0, hnl2]
        dsimp only
        have hin2 := loggerGo_idem rest next1 c next2x c2 leafx hin
        rw [he1] at hin2
        rw [hin2]
        dsimp only
        rw [← he2, setSub_setSub, he3]

/-- Claim C6: a second lookup of the same path name from the registry
returns the identical node (the same node identity) and leaves the registry
state completely unchanged, so repeated lookups are idempotent on the tree. -/
theorem C6_lookup_idempotent (st : St) (name : Str) (st2 : St) (leaf : Nat)
    (h : LoggerFn st name = .ok (st2, leaf)) :
    LoggerFn st2 name = .ok (st2, leaf) := by
  unfold LoggerFn at h ⊢
  cases hg : loggerGo st.next st.root (splitChar '/' name) with
  | error e => rw [hg] at h; exact absurd h (by simp)
  | ok r =>
    obtain ⟨next2, root2, lf⟩ := r
    rw [hg] at h
    dsimp only at h
    by_cases hl : lf = st.root.id
    · rw [if_pos hl] at h; exact absurd h (by simp)
    · rw [if_neg hl] at h
      simp at h
      obtain ⟨hst, hlf⟩ := h
      have hid : root2.id = st.root.id := loggerGo_root_id _ _ _ _ _ _ hg
      have hidem := loggerGo_idem (splitChar '/' name) st.next st.root next2 root2 lf hg
      have hne : ¬ (lf = root2.id) := by rw [hid]; exact hl
      subst hlf
      subst hst
      dsimp only
      rw [hidem]
      dsimp only
      rw [if_neg hne]

theorem C6_witness : LoggerFn c6St "a".toList = .ok (c6St, 1) :=
  C6_lookup_idempotent topState "a".toList c6St 1 rfl

theorem all_empty_of_keepNonempty_nil : ∀ (l : List Str),
    keepNonempty l = [] → ∀ s ∈ l, s = ([] : Str)
| [], _, s, hs => absurd hs (List.not_mem_nil s)
| x :: xs, h, s, hs => by
  cases x with
  | nil =>
    have h2 : keepNonempty xs = [] := by simpa [keepNonempty] using h
    cases List.mem_cons.mp hs with
    | inl he => exact he
    | inr hm => exact all_empty_of_keepNonempty_nil xs h2 s hm
  | cons a as =>
    exfalso
    have hx : keepNonempty ((a :: as) :: xs) = (a :: as) :: keepNonempty xs := by
      simp [keepNonempty]
    rw [hx] at h
    exact absurd h (by simp)

theorem loggerGo_all_empty : ∀ (segs : List Str) (next : Nat) (t : LNode),
    (∀ s ∈ segs, s = ([] : Str)) → loggerGo next t segs = .ok (next, t, t.id)
| [], next, t, _ => rfl
| n :: rest, next, t, h => by
  have hn : n = [] := h n (List.mem_cons_self n rest)
  have h0 : n.length = 0 := by rw [hn]; rfl
  have htl := loggerGo_all_empty rest next t (fun s hs => h s (List.mem_cons_of_mem n hs))
  simpa [loggerGo, h0] using htl

theorem loggerGo_invalid : ∀ (segs : List Str) (next : Nat) (t : LNode) (s : Str),
    s ∈ segs → s ≠ [] → validName s = false →
    ∃ e, loggerGo next t segs = .error e
| [], _, _, s, hs, _, _ => absurd hs (List.not_mem_nil s)
| n :: rest, next, t, s, hs, hne, hinv => by
  by_cases h0 : n.length = 0
  · have hsr : s ∈ rest := by
      cases List.mem_cons.mp hs with
      | inl heq =>
        exact absurd (by rw [heq]; exact List.length_eq_zero.mp h0) hne
      | inr hm => exact hm
    obtain ⟨e, he⟩ := loggerGo_invalid rest next t s hsr hne hinv
    exact ⟨e, by simpa [loggerGo, h0] using he⟩
  · cases List.mem_cons.mp hs with
    | inl heq =>
      refine ⟨"invalid logger name \"".toList ++ n ++ "\"".toList, ?_⟩
      rw [loggerGo_cons next t n rest h0]
      have : nodeLogger next n t =
          .error ("invalid logger name \"".toList ++ n ++ "\"".toList) := by
        rw [heq] at hinv
        simp [nodeLogger, hinv]
      rw [this]
    | inr hsr =>
      cases hnl : nodeLogger next n t with
      | error e =>
        exact ⟨e, by rw [loggerGo_cons next t n rest h0, hnl]⟩
      | ok r =>
        obtain ⟨next1, t1, c⟩ := r
        obtain ⟨e, he⟩ := loggerGo_invalid rest next1 c s hsr hne hinv
        refine ⟨e, ?_⟩
        rw [loggerGo_cons next t n rest h0, hnl]
        dsimp only
        rw [he]

theorem loggerGo_navigate : ∀ (segs : List Str) (next : Nat) (t : LNode)
    (next2 : Nat) (t2 : LNode) (leaf : Nat),
    loggerGo next t segs = .ok (next2, t2, leaf) →
    ∃ n2, navigate t2 (keepNonempty segs) = some n2 ∧ n2.id = leaf
| [], next, t, next2, t2, leaf => by
  intro h
  simp [loggerGo] at h
  refine ⟨t2, by simp [keepNonempty, navigate], ?_⟩
  rw [← h.2.1, ← h.2.2]
| n :: rest, next, t, next2, t2, leaf => by
  intro h
  by_cases h0 : n.length = 0
  · have hn : n = [] := List.length_eq_zero.mp h0
    have hk : keepNonempty (n :: rest) = keepNonempty rest := by
      rw [hn]; simp [keepNonempty]
    rw [hk]
    have h2 : loggerGo next t rest = .ok (next2, t2, leaf) := by
      simpa [loggerGo, h0] using h
    exact loggerGo_navigate rest next t next2 t2 leaf h2
  · have hne : n ≠ [] := fun hn => h0 (by rw [hn]; rfl)
    have hk : keepNonempty (n :: rest) = n :: keepNonempty rest := by
      cases n with
      | nil => exact absurd rfl hne
      | cons a as => simp [keepNonempty]
    rw [loggerGo_cons next t n rest h0] at h
    cases hnl : nodeLogger next n t with
    | error e => rw [hnl] at h; exact absurd h (by simp)
    | ok r =>
      obtain ⟨next1, t1, c⟩ := r
      rw [hnl] at h
      dsimp only at h
      cases hin : loggerGo next1 c rest with
      | error e => rw [hin] at h; exact absurd h (by simp)
      | ok r2 =>
        obtain ⟨next2x, c2, leafx⟩ := r2
        rw [hin] at h
        simp at h
        obtain ⟨he1, he2, he3⟩ := h
        obtain ⟨n2, hn2, hid⟩ := loggerGo_navigate rest next1 c next2x c2 leafx hin
        refine ⟨n2, ?_, by rw [hid, he3]⟩
        rw [hk, ← he2]
        show (match lookupSubs (setSub t1 n c2).subs n with
              | some cx => navigate cx (keepNonempty rest)
              | none => none) = some n2
        rw [lookupSubs_setSub_self]
        exact hn2

/-- Claim C7: the registry entry point splits the name on the path
separator, fails fast on a name whose nonempty pieces are none at all (an
empty or root-only name) and on any nonempty piece that fails the naming
pattern, and on success every nonempty piece is valid and the returned leaf
is the node reached by walking the created or located pieces in order in the
resulting tree. -/
theorem C7_registry_spec (st : St) (name : Str) :
    (keepNonempty (splitChar '/' name) = [] → ∃ e, LoggerFn st name = .error e) ∧
    ((∃ s, s ∈ splitChar '/' name ∧ s ≠ [] ∧ validName s = false) →
      ∃ e, LoggerFn st name = .error e) ∧
    (∀ (st2 : St) (leaf : Nat), LoggerFn st name = .ok (st2, leaf) →
      keepNonempty (splitChar '/' name) ≠ [] ∧
      (∀ s, s ∈ splitChar '/' name → s ≠ [] → validName s = true) ∧
      ∃ n2, navigate st2.root (keepNonempty (splitChar '/' name)) = some n2 ∧
        n2.id = leaf) := by
  refine ⟨?_, ?_, ?_⟩
  · intro hk
    have hall := all_empty_of_keepNonempty_nil _ hk
    have hg := loggerGo_all_empty (splitChar '/' name) st.next st.root hall
    exact ⟨"missing logger name".toList, by simp [LoggerFn, hg]⟩
  · rintro ⟨s, hs, hne, hinv⟩
    obtain ⟨e, he⟩ := loggerGo_invalid (splitChar '/' name) st.next st.root s hs hne hinv
    exact ⟨e, by simp [LoggerFn, he]⟩
  · intro st2 leaf h
    unfold LoggerFn at h
    cases hg : loggerGo st.next st.root (splitChar '/' name) with
    | error e => rw [hg] at h; exact absurd h (by simp)
    | ok r =>
      obtain ⟨next2, root2, lf⟩ := r
      rw [hg] at h
      dsimp only at h
      by_cases hl : lf = st.root.id
      · rw [if_pos hl] at h; exact absurd h (by simp)
      · rw [if_neg hl] at h
        simp at h
        obtain ⟨hst, hlf⟩ := h
        refine ⟨?_, ?_, ?_⟩
        · intro hk
          have hall := all_empty_of_keepNonempty_nil _ hk
          have hae := loggerGo_all_empty (splitChar '/' name) st.next st.root hall
          have hcomb := hae.symm.trans hg
          simp at hcomb
          exact hl hcomb.2.2.symm
        · intro s hs hne
          cases hb : validName s
          · exfalso
            obtain ⟨e, he⟩ :=
              loggerGo_invalid (splitChar '/' name) st.next st.root s hs hne hb
            rw [he] at hg
            exact absurd hg (by simp)
          · rfl
        · obtain ⟨n2, hn2, hid⟩ := loggerGo_navigate _ _ _ _ _ _ hg
          refine ⟨n2, ?_, by rw [hid, hlf]⟩
          rw [← hst]
          exact hn2

theorem C7_witness :
    (∃ e, LoggerFn topState "/".toList = .error e) ∧
    (∃ e, LoggerFn topState "x/A".toList = .error e) ∧
    (keepNonempty (splitChar '/' "a/b".toList) ≠ [] ∧
     (∀ s, s ∈ splitChar '/' "a/b".toList → s ≠ [] → validName s = true) ∧
     ∃ n2, navigate c7St.root (keepNonempty (splitChar '/' "a/b".toList)) = some n2 ∧
       n2.id = 2) :=
  ⟨(C7_registry_spec topState "/".toList).1 (by decide),
   (C7_registry_spec topState "x/A".toList).2.1
     ⟨"A".toList, by decide, by decide, by decide⟩,
   (C7_registry_spec topState "a/b".toList).2.2 c7St 2 rfl⟩

end GoLog
